import Mathlib

/-
  Verification of the pdf-tools transformation core against its
  natural-language specification.

  The repository's operations live in worker threads under
  `src/pdf_tools/pages/`.  Each worker delegates document parsing,
  serialization and rasterization to external libraries (pypdf, fitz/PyMuPDF,
  PIL, python-pptx); the repository's own logic is the page bookkeeping,
  grouping, naming, canvas compositing and UI-level validation around those
  calls.  This file shallowly embeds that logic:

  * a `Document` is its ordered list of pages (the only structure the
    repository's code inspects);
  * each external library call is embedded as a Lean function whose doc
    comment names the call; where the library's result is not computed by
    repository code, the function's behaviour is modelled from the library's
    documented contract as restated by the spec (the doc comment says so);
  * UI-level validation (`on_merge`, `on_encrypt`) is embedded as a function
    from the validated fields to an explicit result variant;
  * the encrypt worker's file-system behaviour is embedded as the sequence of
    file-system operations it performs plus the state the target path is left
    in when a given step fails.
-/

namespace PdfTools

/-- A page: the geometry the rasterizer reads (media box, in points) plus an
origin tag so that theorems can talk about which source a page came from.
The repository's code never inspects page contents, only moves pages
around, so this is the whole page model. -/
structure Page where
  srcId : Nat
  idx : Nat
  mbW : Nat
  mbH : Nat
  deriving Repr, DecidableEq

/-- A document, as the repository's code sees it: its ordered list of pages
(`reader.pages` / `writer.pages`). -/
abbrev Document := List Page

/-! ## Merge (`src/pdf_tools/pages/pdf_merge.py`) -/

/-- Embedding of the page-collection loop of `MergeThread.run`
(pdf_merge.py lines 21-25): a fresh `PdfWriter` starts with no pages and
`writer.add_page(page)` appends one page, for each input in order, for each
of its pages in order. -/
def mergeRun (inputs : List Document) : Document :=
  inputs.foldl (fun writer d => writer ++ d) []

/-- `mergeRun` is flattening: a helper for the order theorem. -/
theorem mergeRun_eq_flatten (inputs : List Document) : mergeRun inputs = inputs.flatten := by
  suffices h : ∀ acc : Document, inputs.foldl (fun w d => w ++ d) acc = acc ++ inputs.flatten by
    simpa [mergeRun] using h []
  induction inputs with
  | nil => intro acc; simp
  | cons d rest ih => intro acc; simp [List.foldl_cons, ih, List.append_assoc]

/-- C1: `merge([A, B])` has `m + n` pages, the first `m` being A's pages in
A's order and the rest B's pages in B's order; in general the merged
document is exactly the concatenation of the sources' page lists in the
order the caller lists them, each source's pages kept in their order. -/
theorem merge_appends_in_order :
    (∀ A B : Document,
      (mergeRun [A, B]).length = A.length + B.length ∧
      (mergeRun [A, B]).take A.length = A ∧
      (mergeRun [A, B]).drop A.length = B) ∧
    (∀ inputs : List Document, mergeRun inputs = inputs.flatten) := by
  refine ⟨fun A B => ?_, mergeRun_eq_flatten⟩
  have h : mergeRun [A, B] = A ++ B := by
    rw [mergeRun_eq_flatten]; simp
  refine ⟨?_, ?_, ?_⟩
  · rw [h]; exact List.length_append A B
  · rw [h]; simp
  · rw [h]; simp

/-! ## Split (`src/pdf_tools/pages/pdf_split.py`) -/

/-- Embedding of the grouping loop of `SplitThread.run` (pdf_split.py lines
98-102): `for start in range(0, total, k)` takes the consecutive slice
`reader.pages[start : start + k]` as one output group.  For `k = 0` Python's
`range` would raise before producing a group (the spin box confines `k` to
`1..10000`), so no group is produced. -/
def chunksF (k : Nat) : Nat → List α → List (List α)
  | _, [] => []
  | 0, _ :: _ => []
  | fuel + 1, a :: t =>
    if k = 0 then []
    else (a :: t).take k :: chunksF k fuel ((a :: t).drop k)

/-- The grouping itself, with fuel fixed to the list length (always enough:
each step consumes at least one page). -/
def chunks (k : Nat) (l : List α) : List (List α) :=
  chunksF k l.length l

theorem chunksF_congr (k : Nat) (n : Nat) :
    ∀ (m : Nat) (l : List α), l.length ≤ n → l.length ≤ m →
      chunksF k n l = chunksF k m l := by
  induction n with
  | zero =>
    intro m l hn _
    rw [List.length_eq_zero.mp (Nat.le_zero.mp hn)]
    cases m <;> rfl
  | succ n ih =>
    intro m l hn hm
    cases l with
    | nil => cases m <;> rfl
    | cons a t =>
      cases m with
      | zero => simp at hm
      | succ m =>
        by_cases hk : k = 0
        · simp [chunksF, hk]
        · simp only [chunksF, hk, if_false]
          congr 1
          apply ih
          · simp at hn ⊢; omega
          · simp at hm ⊢; omega

theorem chunks_nil (k : Nat) : chunks k ([] : List α) = [] := rfl

theorem chunks_cons (k : Nat) (hk : k ≠ 0) (a : α) (t : List α) :
    chunks k (a :: t) = (a :: t).take k :: chunks k ((a :: t).drop k) := by
  show chunksF k (t.length + 1) (a :: t) = _
  simp only [chunksF, hk, if_false]
  congr 1
  apply chunksF_congr
  · simp; omega
  · exact le_rfl

/-- The groups, concatenated back in order, are the original page list. -/
theorem chunks_flatten (k : Nat) (hk : k ≠ 0) (l : List α) :
    (chunks k l).flatten = l := by
  suffices h : ∀ n (l : List α), l.length ≤ n → (chunks k l).flatten = l from
    h l.length l le_rfl
  intro n
  induction n with
  | zero =>
    intro l hl
    rw [List.length_eq_zero.mp (Nat.le_zero.mp hl), chunks_nil]
    rfl
  | succ n ih =>
    intro l hl
    cases l with
    | nil => rw [chunks_nil]; rfl
    | cons a t =>
      rw [chunks_cons k hk a t, List.flatten_cons,
        ih _ (by simp at hl ⊢; omega)]
      exact List.take_append_drop k (a :: t)

/-- There are `⌈length / k⌉` groups (stated with the Nat ceiling formula). -/
theorem chunks_length (k : Nat) (hk : k ≠ 0) (l : List α) :
    (chunks k l).length = (l.length + k - 1) / k := by
  suffices h : ∀ n (l : List α), l.length ≤ n →
      (chunks k l).length = (l.length + k - 1) / k from h l.length l le_rfl
  intro n
  induction n with
  | zero =>
    intro l hl
    rw [List.length_eq_zero.mp (Nat.le_zero.mp hl), chunks_nil]
    simp [Nat.div_eq_of_lt (show k - 1 < k by omega)]
  | succ n ih =>
    intro l hl
    cases l with
    | nil => simp [chunks_nil, Nat.div_eq_of_lt (show k - 1 < k by omega)]
    | cons a t =>
      rw [chunks_cons k hk a t]
      simp only [List.length_cons]
      rw [ih _ (by simp at hl ⊢; omega)]
      simp only [List.length_drop, List.length_cons]
      have hrhs : t.length + 1 + k - 1 = t.length + k := by omega
      rw [hrhs, Nat.add_div_right _ (Nat.pos_of_ne_zero hk)]
      rcases Nat.lt_or_ge t.length k with hlt | hge
      · have h1 : t.length + 1 - k = 0 := by omega
        rw [h1, Nat.div_eq_of_lt (by omega), Nat.div_eq_of_lt hlt]
      · have h1 : t.length + 1 - k + k - 1 = t.length - k + k := by omega
        rw [h1, Nat.add_div_right _ (Nat.pos_of_ne_zero hk)]
        have h2 : t.length = t.length - k + k := by omega
        conv_rhs => rw [h2]
        rw [Nat.add_div_right _ (Nat.pos_of_ne_zero hk)]

/-- No group holds more than `k` pages. -/
theorem chunks_mem_length_le (k : Nat) (l : List α) (c : List α)
    (hc : c ∈ chunks k l) : c.length ≤ k := by
  by_cases hk : k = 0
  · subst hk
    cases l with
    | nil => simp [chunks_nil] at hc
    | cons a t => simp [chunks, chunksF] at hc
  suffices h : ∀ n (l : List α), l.length ≤ n → c ∈ chunks k l → c.length ≤ k from
    h l.length l le_rfl hc
  intro n
  induction n with
  | zero =>
    intro l hl hc'
    rw [List.length_eq_zero.mp (Nat.le_zero.mp hl), chunks_nil] at hc'
    simp at hc'
  | succ n ih =>
    intro l hl hc'
    cases l with
    | nil => simp [chunks_nil] at hc'
    | cons a t =>
      rw [chunks_cons k hk a t] at hc'
      rcases List.mem_cons.mp hc' with h | h
      · subst h; simp [List.length_take]
      · exact ih _ (by simp at hl ⊢; omega) h

theorem chunks_eq_nil_iff (k : Nat) (hk : k ≠ 0) (l : List α) :
    chunks k l = [] ↔ l = [] := by
  cases l with
  | nil => simp [chunks_nil]
  | cons a t => rw [chunks_cons k hk a t]; simp

/-- Every group except possibly the last holds exactly `k` pages. -/
theorem chunks_dropLast_length (k : Nat) (hk : k ≠ 0) (l : List α) (c : List α)
    (hc : c ∈ (chunks k l).dropLast) : c.length = k := by
  suffices h : ∀ n (l : List α), l.length ≤ n →
      c ∈ (chunks k l).dropLast → c.length = k from h l.length l le_rfl hc
  intro n
  induction n with
  | zero =>
    intro l hl hc'
    rw [List.length_eq_zero.mp (Nat.le_zero.mp hl), chunks_nil] at hc'
    simp at hc'
  | succ n ih =>
    intro l hl hc'
    cases l with
    | nil => simp [chunks_nil] at hc'
    | cons a t =>
      rw [chunks_cons k hk a t] at hc'
      rcases heq : chunks k ((a :: t).drop k) with _ | ⟨g, gs⟩
      · rw [heq] at hc'; simp at hc'
      · rw [heq, List.dropLast_cons_of_ne_nil (by simp)] at hc'
        rcases List.mem_cons.mp hc' with h | h
        · subst h
          have hd : (a :: t).drop k ≠ [] := by
            intro hnil
            rw [hnil, chunks_nil] at heq
            exact List.cons_ne_nil g gs heq.symm
          have hlen : k < (a :: t).length := by
            by_contra hle
            push_neg at hle
            exact hd (List.drop_eq_nil_of_le hle)
          simp only [List.length_cons] at hlen
          simp [List.length_take]
          omega
        · rw [← heq] at h
          exact ih _ (by simp at hl ⊢; omega) h

/-- Embedding of Python's format `f"{part:03d}"` (pdf_split.py line 103):
decimal digits, left-padded with zeros to width at least 3. -/
def pad3 (n : Nat) : String :=
  let s := toString n
  if s.length < 3 then ⟨List.replicate (3 - s.length) '0' ++ s.data⟩ else s

/-- Embedding of the write loop of `SplitThread.run` (pdf_split.py lines
98-106): the groups are written in order, the part counter starting at 1 and
incremented once per group, each group going to
`{base_name}_part{part:03d}.pdf`. -/
def splitWrites (base : String) : Nat → List (List Page) → List (String × List Page)
  | _, [] => []
  | part, g :: gs =>
    (base ++ "_part" ++ pad3 part ++ ".pdf", g) :: splitWrites base (part + 1) gs

/-- Embedding of `SplitThread.run`'s whole output (pdf_split.py lines 89-106):
the ordered list of (file name, page group) pairs it writes. -/
def splitRun (pages : List Page) (k : Nat) (base : String) :
    List (String × List Page) :=
  splitWrites base 1 (chunks k pages)

theorem splitWrites_map_snd (base : String) (p : Nat) (gs : List (List Page)) :
    (splitWrites base p gs).map Prod.snd = gs := by
  induction gs generalizing p with
  | nil => rfl
  | cons g gs ih => simp [splitWrites, ih]

theorem splitWrites_length (base : String) (p : Nat) (gs : List (List Page)) :
    (splitWrites base p gs).length = gs.length := by
  induction gs generalizing p with
  | nil => rfl
  | cons g gs ih => simp [splitWrites, ih]

theorem splitWrites_map_fst (base : String) (p : Nat) (gs : List (List Page)) :
    (splitWrites base p gs).map Prod.fst =
      (List.range gs.length).map (fun i => base ++ "_part" ++ pad3 (p + i) ++ ".pdf") := by
  induction gs generalizing p with
  | nil => rfl
  | cons g gs ih =>
    simp only [splitWrites, List.map_cons, List.length_cons, List.range_succ_eq_map,
      List.map_map, ih]
    congr 1
    apply List.map_congr_left
    intro i _
    have h : p + 1 + i = p + (i + 1) := by omega
    simp [Function.comp, h]

/-- The Nat formula `(a + b - 1) / b` used in `chunks_length` is the true
rational ceiling `⌈a / b⌉`. -/
theorem nat_ceil_div_formula (a b : Nat) (hb : 0 < b) :
    (((a + b - 1) / b : Nat) : ℤ) = ⌈(a : ℚ) / (b : ℚ)⌉ := by
  have hbq : (0 : ℚ) < (b : ℚ) := by exact_mod_cast hb
  have hub : (a + b - 1) / b * b ≤ a + b - 1 := Nat.div_mul_le_self _ _
  have hlb : a + b - 1 < ((a + b - 1) / b + 1) * b :=
    (Nat.div_lt_iff_lt_mul hb).mp (Nat.lt_succ_self _)
  rw [Nat.add_mul, Nat.one_mul] at hlb
  have h1 : a ≤ (a + b - 1) / b * b := by omega
  have h2 : (((a + b - 1) / b * b : ℕ) : ℤ) - b < a := by omega
  symm
  rw [Int.ceil_eq_iff]
  refine ⟨?_, ?_⟩
  · rw [lt_div_iff₀ hbq, sub_mul, one_mul]
    push_cast at h2 ⊢
    exact_mod_cast h2
  · rw [div_le_iff₀ hbq]
    exact_mod_cast h1

/-- C2: `split(D, k)` for a document with `N ≥ 1` pages and group size
`k ≥ 1` yields exactly `⌈N / k⌉` outputs; their page counts sum to `N`; each
count is at most `k`; every output but the last holds exactly `k` pages (so
only the last may be smaller); and the i-th output (0-based) is named
`<prefix>_part<i+1, zero-padded to 3 digits>.pdf`, in group order. -/
theorem split_group_counts_and_names (pages : List Page) (k : Nat) (base : String)
    (hk : 0 < k) (_hN : 0 < pages.length) :
    (((splitRun pages k base).length : ℤ) = ⌈(pages.length : ℚ) / (k : ℚ)⌉) ∧
    ((splitRun pages k base).map (fun out => out.2.length)).sum = pages.length ∧
    (∀ out ∈ splitRun pages k base, out.2.length ≤ k) ∧
    (∀ out ∈ (splitRun pages k base).dropLast, out.2.length = k) ∧
    (splitRun pages k base).map Prod.fst =
      (List.range (splitRun pages k base).length).map
        (fun i => base ++ "_part" ++ pad3 (i + 1) ++ ".pdf") := by
  have hk' : k ≠ 0 := Nat.pos_iff_ne_zero.mp hk
  refine ⟨?_, ?_, ?_, ?_, ?_⟩
  · rw [splitRun, splitWrites_length, chunks_length k hk']
    exact nat_ceil_div_formula pages.length k hk
  · have hmap : (splitRun pages k base).map (fun out => out.2.length) =
        (chunks k pages).map List.length := by
      rw [show (fun out : String × List Page => out.2.length) =
        List.length ∘ Prod.snd from rfl, ← List.map_map, splitRun, splitWrites_map_snd]
    rw [hmap, ← List.length_flatten, chunks_flatten k hk']
  · intro out hout
    have : out.2 ∈ (splitRun pages k base).map Prod.snd := List.mem_map_of_mem _ hout
    rw [splitRun, splitWrites_map_snd] at this
    exact chunks_mem_length_le k pages out.2 this
  · intro out hout
    have : out.2 ∈ ((splitRun pages k base).dropLast).map Prod.snd :=
      List.mem_map_of_mem _ hout
    rw [List.map_dropLast, splitRun, splitWrites_map_snd] at this
    exact chunks_dropLast_length k hk' pages out.2 this
  · rw [splitRun, splitWrites_map_fst, splitWrites_length]
    apply List.map_congr_left
    intro i _
    have h : 1 + i = i + 1 := by omega
    rw [h]

/-- A sample US-Letter page (612 x 792 points) used by concrete witnesses. -/
def pgA : Page := ⟨0, 0, 612, 792⟩

/-- Witness for C2: a 25-page document split with group size 10 gives
3 outputs whose page counts are 10, 10, 5 and whose names are
`doc_part001.pdf`, `doc_part002.pdf`, `doc_part003.pdf`. -/
theorem split_group_counts_and_names_witness :
    ((0 : Nat) < 10 ∧ 0 < (List.replicate 25 pgA).length) ∧
    (∀ out ∈ (splitRun (List.replicate 25 pgA) 10 "doc").dropLast,
      out.2.length = 10) ∧
    ((splitRun (List.replicate 25 pgA) 10 "doc").map
        (fun out => out.2.length)).sum = (List.replicate 25 pgA).length ∧
    (splitRun (List.replicate 25 pgA) 10 "doc").map (fun out => out.2.length) =
      [10, 10, 5] ∧
    (splitRun (List.replicate 25 pgA) 10 "doc").map Prod.fst =
      ["doc_part001.pdf", "doc_part002.pdf", "doc_part003.pdf"] :=
  ⟨⟨by decide, by decide⟩,
   (split_group_counts_and_names (List.replicate 25 pgA) 10 "doc"
      (by decide) (by decide)).2.2.2.1,
   (split_group_counts_and_names (List.replicate 25 pgA) 10 "doc"
      (by decide) (by decide)).2.1,
   by decide,
   by decide⟩

/-! ## Merge validation (`PdfMergePage.on_merge`, pdf_merge.py lines 140-160) -/

/-- Embedding of Python's `str.strip()` applied to the output-path field:
drop whitespace from both ends. -/
def stripStr (s : String) : String :=
  ⟨((s.data.dropWhile Char.isWhitespace).reverse.dropWhile Char.isWhitespace).reverse⟩

/-- Result of the validation in `PdfMergePage.on_merge`. -/
inductive MergeUiResult
  | rejectedTooFewFiles
  | rejectedNoOutput
  | started (inputs : List Document) (out : String)
  deriving Repr, DecidableEq

/-- Embedding of `PdfMergePage.on_merge` (pdf_merge.py lines 140-160): the
gathered input list is rejected when it holds fewer than 2 files
(`len(inputs) < 2`), then the stripped output path is rejected when blank,
and otherwise the merge worker is started with exactly these inputs.  A
rejection happens before the worker thread exists, so nothing is written. -/
def onMerge (inputs : List Document) (out : String) : MergeUiResult :=
  if inputs.length < 2 then .rejectedTooFewFiles
  else if stripStr out = "" then .rejectedNoOutput
  else .started inputs out

/-- Total page count over all source documents. -/
def totalPages (inputs : List Document) : Nat :=
  (inputs.map List.length).sum

/-- Counterexample to C4: the merge precondition counts source files, not
source pages.  A single 5-page document carries 5 ≥ 2 source pages yet is
rejected, while two zero-page documents carry 0 < 2 source pages yet pass
the precondition and start the merge. -/
theorem merge_precondition_counterexample :
    (totalPages [List.replicate 5 pgA] = 5 ∧
      onMerge [List.replicate 5 pgA] "out.pdf" = .rejectedTooFewFiles) ∧
    (totalPages [[], []] = 0 ∧
      onMerge [[], []] "out.pdf" = .started [[], []] "out.pdf") := by
  decide

/-- C4 amended: merge's precondition is at least 2 source documents (files),
regardless of their page counts: with fewer than 2 documents the request is
rejected with the too-few-inputs warning before the worker starts and no
output is produced, and with 2 or more documents the precondition check
passes and (given a non-blank output path) the merge starts. -/
theorem merge_requires_two_files (inputs : List Document) (out : String)
    (hout : stripStr out ≠ "") :
    (inputs.length < 2 → onMerge inputs out = .rejectedTooFewFiles) ∧
    (2 ≤ inputs.length → onMerge inputs out = .started inputs out) := by
  constructor
  · intro h
    simp [onMerge, h]
  · intro h
    simp [onMerge, Nat.not_lt.mpr h, hout]

/-- Witness for C4's amended theorem: one document is rejected however many
pages it has; two documents start the merge however few pages they have. -/
theorem merge_requires_two_files_witness :
    (stripStr "o.pdf" ≠ "") ∧
    onMerge [[], []] "o.pdf" = .started [[], []] "o.pdf" ∧
    onMerge [List.replicate 5 pgA] "o.pdf" = .rejectedTooFewFiles :=
  ⟨by decide,
   (merge_requires_two_files [[], []] "o.pdf" (by decide)).2 (by decide),
   (merge_requires_two_files [List.replicate 5 pgA] "o.pdf" (by decide)).1
     (by decide)⟩

/-! ## Encrypt validation (`PdfEncryptPage.on_encrypt`, pdf_encrypt.py lines
181-202) -/

/-- Result of the validation in `PdfEncryptPage.on_encrypt`. -/
inductive EncryptUiResult
  | rejectedNoInput
  | rejectedEmptyPassword
  | rejectedNoOutput
  | started (pwd : String) (out : String)
  deriving Repr, DecidableEq

/-- Embedding of `PdfEncryptPage.on_encrypt` (pdf_encrypt.py lines 181-202):
input-file presence is checked first, then the password is rejected when
empty (Python `if not pwd`), then the stripped output path when blank; only
then is the encrypt worker started.  A rejection happens before the worker
thread exists, so no transformation work has begun and nothing is
written. -/
def onEncrypt (inputIsFile : Bool) (pwd : String) (out : String) :
    EncryptUiResult :=
  if !inputIsFile then .rejectedNoInput
  else if pwd = "" then .rejectedEmptyPassword
  else if stripStr out = "" then .rejectedNoOutput
  else .started pwd out

/-- C8: with an input document chosen, the empty password is rejected with
the empty-password error before the worker starts — so before any
transformation work, with no side effects — and any non-empty password
passes the password precondition (its run is never rejected for an empty
password). -/
theorem encrypt_rejects_empty_password (pwd out : String) (hp : pwd ≠ "") :
    (∀ out' : String, onEncrypt true "" out' = .rejectedEmptyPassword) ∧
    onEncrypt true pwd out ≠ .rejectedEmptyPassword := by
  constructor
  · intro out'
    simp [onEncrypt]
  · simp only [onEncrypt, Bool.not_true]
    simp [hp]
    split <;> simp

/-- Witness for C8 at a concrete password and output path. -/
theorem encrypt_rejects_empty_password_witness :
    ("secret" ≠ "") ∧
    onEncrypt true "" "o.pdf" = .rejectedEmptyPassword ∧
    onEncrypt true "secret" "o.pdf" ≠ .rejectedEmptyPassword :=
  ⟨by decide,
   (encrypt_rejects_empty_password "secret" "o.pdf" (by decide)).1 "o.pdf",
   (encrypt_rejects_empty_password "secret" "o.pdf" (by decide)).2⟩

/-! ## Encrypt worker file-system behaviour (`EncryptThread.run`,
pdf_encrypt.py lines 88-105) -/

/-- A file-system operation the encrypt worker can perform. -/
inductive FsOp
  | mkdirParents (dir : String)
  | openWrite (path : String)
  | writeAll (path : String)
  | renameFile (src dst : String)
  deriving Repr, DecidableEq

def FsOp.isRename : FsOp → Bool
  | .renameFile _ _ => true
  | _ => false

/-- Embedding of the file-system operations `EncryptThread.run` performs on
its success path (pdf_encrypt.py lines 98-101): it creates the output's
parent directory, then opens the final target path itself for writing
(`out.open("wb")`) and writes the encrypted document into that handle.  No
temporary path appears anywhere in the function and no rename is
performed. -/
def encryptRunOps (outParent outPath : String) : List FsOp :=
  [.mkdirParents outParent, .openWrite outPath, .writeAll outPath]

/-- The steps of `EncryptThread.run` after validation, in program order. -/
inductive EncStep
  | readInput
  | encode
  | openOut
  | writeOut
  deriving Repr, DecidableEq

/-- State left at the final target path by a run. -/
inductive TargetState
  | absent
  | truncatedOrHalf
  | fullOutput
  deriving Repr, DecidableEq

/-- Embedding of the control flow of `EncryptThread.run` (pdf_encrypt.py
lines 88-105) around an abstract failure point: all steps run in order
inside one `try`; an exception at a step skips the remaining steps and lands
in `except`, which only emits the error signal and deletes nothing.
`PdfReader`, the page-copy loop and `writer.encrypt` run before the target
is touched, so failing there leaves the target absent; `out.open("wb")`
creates/truncates the target, so a failure inside `writer.write(f)` leaves
whatever content was flushed — a truncated or half-written file. -/
def encryptTargetState (failAt : Option EncStep) : TargetState :=
  match failAt with
  | some .readInput => .absent
  | some .encode => .absent
  | some .openOut => .absent
  | some .writeOut => .truncatedOrHalf
  | none => .fullOutput

/-- Counterexample to C3: the encrypt worker opens the final target path for
writing directly — it performs no rename and uses no temporary path — and a
run in which `writer.write` fails leaves the target in a partial state that
is neither absent nor the full output. -/
theorem encrypt_not_atomic_counterexample :
    (∀ op ∈ encryptRunOps "parent" "out.pdf", op.isRename = false) ∧
    FsOp.openWrite "out.pdf" ∈ encryptRunOps "parent" "out.pdf" ∧
    encryptTargetState (some .writeOut) = .truncatedOrHalf ∧
    encryptTargetState (some .writeOut) ≠ .absent ∧
    encryptTargetState (some .writeOut) ≠ .fullOutput := by
  decide

/-- C3 amended: encrypt writes directly to the final target path — no
temporary path, no rename.  A failure in any step before the output is
opened (reading the source, copying pages, re-encoding under encryption)
leaves nothing at the target, but a failure during the write itself leaves a
partial file there; only a fully successful run leaves the complete
output. -/
theorem encrypt_direct_write_outcomes (outParent outPath : String)
    (failAt : Option EncStep) :
    ((encryptRunOps outParent outPath).all (fun op => !op.isRename) = true) ∧
    FsOp.openWrite outPath ∈ encryptRunOps outParent outPath ∧
    ((failAt = some .readInput ∨ failAt = some .encode ∨ failAt = some .openOut) →
      encryptTargetState failAt = .absent) ∧
    (failAt = some .writeOut → encryptTargetState failAt = .truncatedOrHalf) ∧
    (failAt = none → encryptTargetState failAt = .fullOutput) := by
  refine ⟨?_, ?_, ?_, ?_, ?_⟩
  · simp [encryptRunOps, FsOp.isRename]
  · simp [encryptRunOps]
  · rintro (rfl | rfl | rfl) <;> rfl
  · rintro rfl; rfl
  · rintro rfl; rfl

/-- Witness for C3's amended theorem at concrete paths and the write-failure
point. -/
theorem encrypt_direct_write_outcomes_witness :
    ((encryptRunOps "d" "d/o.pdf").all (fun op => !op.isRename) = true) ∧
    encryptTargetState (some .writeOut) = .truncatedOrHalf ∧
    encryptTargetState none = .fullOutput :=
  ⟨(encrypt_direct_write_outcomes "d" "d/o.pdf" (some .writeOut)).1,
   (encrypt_direct_write_outcomes "d" "d/o.pdf" (some .writeOut)).2.2.2.1 rfl,
   (encrypt_direct_write_outcomes "d" "d/o.pdf" none).2.2.2.2 rfl⟩

/-! ## Rasterizer (`src/pdf_tools/pages/pdf_to_image.py`) -/

/-- An opaque pixel buffer produced by the rasterizer. -/
structure Pixmap where
  width : Nat
  height : Nat
  alpha : Bool
  bgWhite : Bool
  deriving Repr, DecidableEq

/-- Modelled from the spec: the external rasterizer call
`page.get_pixmap(matrix=fitz.Matrix(zoom, zoom), alpha=False)`
(pdf_to_image.py lines 101-107, pdf_to_ppt.py lines 98-111) renders the
page's `w x h`-point media box at scale `zoom = dpi / 72.0` on both axes
into an opaque buffer of `ceil(w * zoom) x ceil(h * zoom)` pixels, white
background composited under any transparency (`alpha=False`).  On Nat,
`(a + 71) / 72` is `ceil(a / 72)` (proved in `nat_ceil_div_formula`).  The
call's body lives in fitz/PyMuPDF, not in this repository, so its contract
is taken from the spec (section 4.5). -/
def getPixmap (w h dpi : Nat) : Pixmap :=
  { width := (w * dpi + 71) / 72
    height := (h * dpi + 71) / 72
    alpha := false
    bgWhite := true }

/-- The per-page rasterization step both exporters share: render page `p` at
the caller's `dpi`. -/
def renderPage (p : Page) (dpi : Nat) : Pixmap :=
  getPixmap p.mbW p.mbH dpi

/-- C5: for every page with a `w x h`-point media box and every DPI in the
accepted range `72..600`, the rendered buffer is opaque (no alpha, white
under transparency) and measures exactly `⌈w * dpi / 72⌉` by
`⌈h * dpi / 72⌉` pixels — stated with the true rational ceiling; in
particular a 612 x 792-point page at 150 DPI yields a 1275 x 1650 buffer. -/
theorem render_buffer_dimensions (p : Page) (dpi : Nat)
    (_hlo : 72 ≤ dpi) (_hhi : dpi ≤ 600) :
    (((renderPage p dpi).width : ℤ) = ⌈((p.mbW * dpi : Nat) : ℚ) / (72 : ℚ)⌉) ∧
    (((renderPage p dpi).height : ℤ) = ⌈((p.mbH * dpi : Nat) : ℚ) / (72 : ℚ)⌉) ∧
    (renderPage p dpi).alpha = false ∧
    (renderPage p dpi).bgWhite = true ∧
    renderPage pgA 150 =
      { width := 1275, height := 1650, alpha := false, bgWhite := true } := by
  refine ⟨?_, ?_, rfl, rfl, by decide⟩
  · have h := nat_ceil_div_formula (p.mbW * dpi) 72 (by omega)
    have h72 : ((72 : ℕ) : ℚ) = (72 : ℚ) := by norm_num
    have hn : p.mbW * dpi + 72 - 1 = p.mbW * dpi + 71 := by omega
    rw [h72, hn] at h
    exact h
  · have h := nat_ceil_div_formula (p.mbH * dpi) 72 (by omega)
    have h72 : ((72 : ℕ) : ℚ) = (72 : ℚ) := by norm_num
    have hn : p.mbH * dpi + 72 - 1 = p.mbH * dpi + 71 := by omega
    rw [h72, hn] at h
    exact h

/-- Witness for C5 at the spec's concrete scenario: US Letter at 150 DPI. -/
theorem render_buffer_dimensions_witness :
    ((72 : Nat) ≤ 150 ∧ (150 : Nat) ≤ 600) ∧
    (renderPage pgA 150).width = 1275 ∧
    (renderPage pgA 150).height = 1650 ∧
    (renderPage pgA 150).alpha = false :=
  ⟨⟨by decide, by decide⟩,
   congrArg Pixmap.width (render_buffer_dimensions pgA 150
      (by decide) (by decide)).2.2.2.2,
   congrArg Pixmap.height (render_buffer_dimensions pgA 150
      (by decide) (by decide)).2.2.2.2,
   congrArg Pixmap.alpha (render_buffer_dimensions pgA 150
      (by decide) (by decide)).2.2.2.2⟩

/-- A PIL image, as the canvas code reads it: pixel dimensions only. -/
structure Img where
  width : Nat
  height : Nat
  deriving Repr, DecidableEq

/-- Modelled from the spec/PIL contract: decoding the pixmap's PNG bytes
(`Image.open(io.BytesIO(pix.tobytes("png")))`) and forcing mode RGB keeps
the pixel dimensions (pdf_to_image.py lines 126-128). -/
def pixToImg (px : Pixmap) : Img :=
  ⟨px.width, px.height⟩

/-- One image pasted on the stitched canvas at pixel offset `(x, y)`. -/
structure Placement where
  img : Img
  x : Nat
  y : Nat
  deriving Repr, DecidableEq

/-- The stitched canvas: its size, white background, and pastes in order. -/
structure Canvas where
  width : Nat
  height : Nat
  bgWhite : Bool
  placements : List Placement
  deriving Repr, DecidableEq

/-- Embedding of the paste loop of `PdfToImageThread.run` (pdf_to_image.py
lines 139-143): `y` starts at 0, each image is pasted at
`x = (max_w - img.width) // 2` (Python floor division) and `y` then advances
by that image's height. -/
def pasteLoop (maxW : Nat) : Nat → List Img → List Placement
  | _, [] => []
  | y, img :: rest =>
    ⟨img, (maxW - img.width) / 2, y⟩ :: pasteLoop maxW (y + img.height) rest

/-- Embedding of the stitched-canvas construction (pdf_to_image.py lines
136-143): `max_w = max(widths)`, `total_h = sum(heights)`, a white RGB
canvas of that size, then the paste loop.  Python's `max` over the
(guaranteed nonempty) width list is the fold below. -/
def stitchCanvas (imgs : List Img) : Canvas :=
  { width := (imgs.map Img.width).foldl max 0
    height := (imgs.map Img.height).sum
    bgWhite := true
    placements := pasteLoop ((imgs.map Img.width).foldl max 0) 0 imgs }

theorem le_foldl_max (l : List Nat) (a : Nat) :
    a ≤ l.foldl max a ∧ ∀ x ∈ l, x ≤ l.foldl max a := by
  induction l generalizing a with
  | nil => exact ⟨le_rfl, by simp⟩
  | cons b t ih =>
    refine ⟨le_trans (le_max_left a b) (ih (max a b)).1, ?_⟩
    intro x hx
    rcases List.mem_cons.mp hx with rfl | hx
    · exact le_trans (le_max_right a x) (ih (max a x)).1
    · exact (ih (max a b)).2 x hx

theorem foldl_max_mem (l : List Nat) (a : Nat) :
    l.foldl max a = a ∨ l.foldl max a ∈ l := by
  induction l generalizing a with
  | nil => exact Or.inl rfl
  | cons b t ih =>
    rcases ih (max a b) with h | h
    · rcases Nat.le_total a b with hab | hab
      · right
        rw [List.foldl_cons, h, Nat.max_eq_right hab]
        exact List.mem_cons_self b t
      · left
        rw [List.foldl_cons, h, Nat.max_eq_left hab]
    · right
      exact List.mem_cons_of_mem b h

theorem pasteLoop_length (maxW : Nat) (y : Nat) (imgs : List Img) :
    (pasteLoop maxW y imgs).length = imgs.length := by
  induction imgs generalizing y with
  | nil => rfl
  | cons img rest ih => simp [pasteLoop, ih]

theorem pasteLoop_map_img (maxW : Nat) (y : Nat) (imgs : List Img) :
    (pasteLoop maxW y imgs).map Placement.img = imgs := by
  induction imgs generalizing y with
  | nil => rfl
  | cons img rest ih => simp [pasteLoop, ih]

theorem pasteLoop_get (maxW : Nat) (imgs : List Img) :
    ∀ (y i : Nat) (hi : i < (pasteLoop maxW y imgs).length),
      ((pasteLoop maxW y imgs).get ⟨i, hi⟩).x =
        (maxW - ((pasteLoop maxW y imgs).get ⟨i, hi⟩).img.width) / 2 ∧
      ((pasteLoop maxW y imgs).get ⟨i, hi⟩).y =
        y + ((imgs.take i).map Img.height).sum := by
  induction imgs with
  | nil => intro y i hi; simp [pasteLoop] at hi
  | cons img rest ih =>
    intro y i hi
    cases i with
    | zero => simp [pasteLoop]
    | succ i =>
      have hi' : i < (pasteLoop maxW (y + img.height) rest).length := by
        simpa [pasteLoop] using hi
      refine ⟨?_, ?_⟩
      · exact (ih (y + img.height) i hi').1
      · have h := (ih (y + img.height) i hi').2
        show ((pasteLoop maxW (y + img.height) rest).get ⟨i, hi'⟩).y = _
        rw [h]
        simp [List.take_succ_cons]
        omega

/-- C6: for a document with at least one page, the stitched canvas is as
wide as the widest rendered page (its width is one of the page widths and
bounds them all) and as tall as the page heights summed; each rendered page
appears exactly once, in page order, pasted at
`x = (canvas width - page width) / 2` — horizontally centered — with `y`
equal to the total height of the pages before it — stacked top-to-bottom —
over a white background. -/
theorem stitch_canvas_layout (imgs : List Img) (hne : imgs ≠ []) :
    ((stitchCanvas imgs).width ∈ imgs.map Img.width ∧
      ∀ w ∈ imgs.map Img.width, w ≤ (stitchCanvas imgs).width) ∧
    (stitchCanvas imgs).height = (imgs.map Img.height).sum ∧
    (stitchCanvas imgs).bgWhite = true ∧
    (stitchCanvas imgs).placements.map Placement.img = imgs ∧
    (∀ i (hi : i < (stitchCanvas imgs).placements.length),
      ((stitchCanvas imgs).placements.get ⟨i, hi⟩).x =
        ((stitchCanvas imgs).width -
          ((stitchCanvas imgs).placements.get ⟨i, hi⟩).img.width) / 2 ∧
      ((stitchCanvas imgs).placements.get ⟨i, hi⟩).y =
        ((imgs.take i).map Img.height).sum) := by
  refine ⟨⟨?_, ?_⟩, rfl, rfl, pasteLoop_map_img _ _ _, ?_⟩
  · rcases foldl_max_mem (imgs.map Img.width) 0 with h | h
    · cases imgs with
      | nil => exact absurd rfl hne
      | cons img rest =>
        show ((img :: rest).map Img.width).foldl max 0 ∈ _
        have hle : img.width ≤ ((img :: rest).map Img.width).foldl max 0 :=
          (le_foldl_max _ 0).2 img.width (by simp)
        rw [show (((img :: rest).map Img.width).foldl max 0 : Nat) = 0 from h] at hle ⊢
        have : img.width = 0 := Nat.le_zero.mp hle
        simp [← this]
    · exact h
  · exact (le_foldl_max (imgs.map Img.width) 0).2
  · intro i hi
    have h := pasteLoop_get ((imgs.map Img.width).foldl max 0) imgs 0 i hi
    have h2 := h.2
    rw [Nat.zero_add] at h2
    exact ⟨h.1, h2⟩

/-- Witness for C6: two rendered pages of 100 x 40 and 60 x 30 pixels give a
100 x 70 canvas with pastes at (0, 0) and (20, 40). -/
theorem stitch_canvas_layout_witness :
    ([(⟨100, 40⟩ : Img), ⟨60, 30⟩] ≠ []) ∧
    (stitchCanvas [⟨100, 40⟩, ⟨60, 30⟩]).width = 100 ∧
    (stitchCanvas [⟨100, 40⟩, ⟨60, 30⟩]).height = 70 ∧
    (stitchCanvas [⟨100, 40⟩, ⟨60, 30⟩]).placements =
      [⟨⟨100, 40⟩, 0, 0⟩, ⟨⟨60, 30⟩, 20, 40⟩] ∧
    (stitchCanvas [⟨100, 40⟩, ⟨60, 30⟩]).height =
      ([(⟨100, 40⟩ : Img), ⟨60, 30⟩].map Img.height).sum :=
  ⟨by decide, by decide, by decide, by decide,
   (stitch_canvas_layout [⟨100, 40⟩, ⟨60, 30⟩] (by decide)).2.1⟩

/-- The two output modes of `PdfToImageThread` (`self.mode`). -/
inductive ImgMode
  | pagesMode
  | singleMode
  deriving Repr, DecidableEq

/-- Embedding of the control flow of `PdfToImageThread.run` (pdf_to_image.py
lines 92-158), with disk writes abstracted into the returned file-name list.
In "pages" mode the loop body runs once per page index, writing
`{stem}_page{i+1:03d}.{fmt}`, and the output directory is emitted —
there is no empty-document check on this path, so a zero-page document
means zero iterations and immediate success.  In "single" mode all pages
are rendered first and `if not images:` raises `RuntimeError` for a
zero-page document (caught and emitted as the error signal); otherwise the
stitched canvas is written and its path emitted (name resolution for the
nonempty case is abstracted as the resolved name). -/
def pdfToImageRun (mode : ImgMode) (doc : Document) (outDir stem fmt : String)
    (resolvedSingleName : String) : Except String (String × List String) :=
  match mode with
  | .pagesMode =>
      .ok (outDir,
        (List.range doc.length).map
          (fun i => stem ++ "_page" ++ pad3 (i + 1) ++ "." ++ fmt))
  | .singleMode =>
      if doc = [] then .error "PDF没有可转换页面"
      else .ok (outDir ++ "/" ++ resolvedSingleName, [resolvedSingleName])

/-- C10: per-page export accepts a zero-page document: its loop runs zero
times, it writes no image files, and it succeeds carrying the output
directory path; per-page mode in fact never returns an error, and the
zero-page error branch is reached only by the single-stitched mode. -/
theorem pages_mode_accepts_empty_document :
    (∀ outDir stem fmt name,
      pdfToImageRun .pagesMode [] outDir stem fmt name = .ok (outDir, [])) ∧
    (∀ doc outDir stem fmt name, ∃ files,
      pdfToImageRun .pagesMode doc outDir stem fmt name = .ok (outDir, files)) ∧
    (∀ outDir stem fmt name,
      pdfToImageRun .singleMode [] outDir stem fmt name =
        .error "PDF没有可转换页面") := by
  refine ⟨fun _ _ _ _ => rfl, fun doc _ _ _ _ => ⟨_, rfl⟩, fun _ _ _ _ => rfl⟩

/-! ## Slide export (`src/pdf_tools/pages/pdf_to_ppt.py`) -/

/-- One slide of the produced presentation.  A slide is created per page and
carries exactly one placed picture — its final size and position in EMU —
so a slide in this model is that placement (no empty slides exist
structurally). -/
structure Slide where
  picW : ℤ
  picH : ℤ
  left : ℤ
  top : ℤ
  deriving Repr, DecidableEq

/-- Embedding of the placement arithmetic of `PdfToPptThread.run`
(pdf_to_ppt.py lines 115-128) for one rendered page image of native size
`iw x ih` EMU on an `sw x sh` EMU slide:
`scale = min(slide_w / img_w, slide_h / img_h)`,
`new_w = int(img_w * scale)`, `new_h = int(img_h * scale)`,
`left = int((slide_w - new_w) / 2)`, `top = int((slide_h - new_h) / 2)`.
The divisions are modelled exactly in ℚ (Python float rounding is not
modelled); `int()` of the nonnegative results is the floor. -/
def placePic (sw sh iw ih : Nat) : Slide :=
  let scale : ℚ := min ((sw : ℚ) / (iw : ℚ)) ((sh : ℚ) / (ih : ℚ))
  let newW : ℤ := ⌊(iw : ℚ) * scale⌋
  let newH : ℤ := ⌊(ih : ℚ) * scale⌋
  { picW := newW
    picH := newH
    left := ⌊((sw : ℚ) - (newW : ℚ)) / 2⌋
    top := ⌊((sh : ℚ) - (newH : ℚ)) / 2⌋ }

/-- Embedding of the page loop of `PdfToPptThread.run` (pdf_to_ppt.py lines
109-128): one blank-layout slide is added per page, in page order, and the
page's rendered image is placed on it by the arithmetic of `placePic`. -/
def pptRun (sw sh : Nat) (imgs : List Img) : List Slide :=
  imgs.map (fun img => placePic sw sh img.width img.height)

/-- Centering by `int(d / 2)` for a nonnegative integer margin `d`: the
offset is nonnegative and the far margin equals the near margin up to one
unit. -/
theorem half_floor_centered (d : ℤ) (hd : 0 ≤ d) :
    0 ≤ ⌊(d : ℚ) / 2⌋ ∧ ⌊(d : ℚ) / 2⌋ ≤ d - ⌊(d : ℚ) / 2⌋ ∧
    d - ⌊(d : ℚ) / 2⌋ ≤ ⌊(d : ℚ) / 2⌋ + 1 := by
  have h1 : ((⌊(d : ℚ) / 2⌋ : ℤ) : ℚ) ≤ (d : ℚ) / 2 := Int.floor_le _
  have h2 : (d : ℚ) / 2 < ((⌊(d : ℚ) / 2⌋ : ℤ) : ℚ) + 1 := Int.lt_floor_add_one _
  have h1' : ((⌊(d : ℚ) / 2⌋ : ℤ) : ℚ) * 2 ≤ (d : ℚ) := by
    rw [← le_div_iff₀ (by norm_num : (0:ℚ) < 2)]
    exact h1
  have h2' : (d : ℚ) < (((⌊(d : ℚ) / 2⌋ : ℤ) : ℚ) + 1) * 2 := by
    rw [← div_lt_iff₀ (by norm_num : (0:ℚ) < 2)]
    exact h2
  have hA : ⌊(d : ℚ) / 2⌋ * 2 ≤ d := by exact_mod_cast h1'
  have hB : d < (⌊(d : ℚ) / 2⌋ + 1) * 2 := by exact_mod_cast h2'
  omega

/-- Scaling a positive length by a nonnegative factor bounded by
`target / length` and flooring stays within `[0, target]`. -/
theorem floor_scaled_bounds (sw iw : Nat) (hiw : 0 < iw) (scale : ℚ)
    (hs : scale ≤ (sw : ℚ) / (iw : ℚ)) (hs0 : 0 ≤ scale) :
    0 ≤ ⌊(iw : ℚ) * scale⌋ ∧ ⌊(iw : ℚ) * scale⌋ ≤ (sw : ℤ) := by
  constructor
  · exact Int.floor_nonneg.mpr (mul_nonneg (by positivity) hs0)
  · have hle : (iw : ℚ) * scale ≤ (sw : ℚ) := by
      have h := mul_le_mul_of_nonneg_left hs (by positivity : (0:ℚ) ≤ (iw : ℚ))
      rwa [mul_div_cancel₀] at h
      exact_mod_cast Nat.pos_iff_ne_zero.mp hiw
    calc ⌊(iw : ℚ) * scale⌋ ≤ ⌊(sw : ℚ)⌋ := Int.floor_le_floor hle
    _ = (sw : ℤ) := Int.floor_natCast sw

/-- Everything C7 states about a single placement. -/
theorem placePic_spec (sw sh iw ih : Nat)
    (hiw : 0 < iw) (hih : 0 < ih) :
    ((placePic sw sh iw ih).picW =
        ⌊(iw : ℚ) * min ((sw : ℚ) / (iw : ℚ)) ((sh : ℚ) / (ih : ℚ))⌋ ∧
      (placePic sw sh iw ih).picH =
        ⌊(ih : ℚ) * min ((sw : ℚ) / (iw : ℚ)) ((sh : ℚ) / (ih : ℚ))⌋) ∧
    (0 ≤ (placePic sw sh iw ih).picW ∧ (placePic sw sh iw ih).picW ≤ (sw : ℤ) ∧
      0 ≤ (placePic sw sh iw ih).picH ∧ (placePic sw sh iw ih).picH ≤ (sh : ℤ)) ∧
    (0 ≤ (placePic sw sh iw ih).left ∧
      (placePic sw sh iw ih).left ≤
        (sw : ℤ) - (placePic sw sh iw ih).picW - (placePic sw sh iw ih).left ∧
      (sw : ℤ) - (placePic sw sh iw ih).picW - (placePic sw sh iw ih).left ≤
        (placePic sw sh iw ih).left + 1) ∧
    (0 ≤ (placePic sw sh iw ih).top ∧
      (placePic sw sh iw ih).top ≤
        (sh : ℤ) - (placePic sw sh iw ih).picH - (placePic sw sh iw ih).top ∧
      (sh : ℤ) - (placePic sw sh iw ih).picH - (placePic sw sh iw ih).top ≤
        (placePic sw sh iw ih).top + 1) := by
  have hs0 : (0 : ℚ) ≤ min ((sw : ℚ) / (iw : ℚ)) ((sh : ℚ) / (ih : ℚ)) :=
    le_min (by positivity) (by positivity)
  have hW := floor_scaled_bounds sw iw hiw _ (min_le_left _ _) hs0
  have hH := floor_scaled_bounds sh ih hih _ (min_le_right _ _) hs0
  refine ⟨⟨rfl, rfl⟩, ⟨hW.1, hW.2, hH.1, hH.2⟩, ?_, ?_⟩
  · have hd : (0 : ℤ) ≤ (sw : ℤ) - (placePic sw sh iw ih).picW := by
      have := hW.2
      show (0 : ℤ) ≤ (sw : ℤ) -
        ⌊(iw : ℚ) * min ((sw : ℚ) / (iw : ℚ)) ((sh : ℚ) / (ih : ℚ))⌋
      omega
    have hc := half_floor_centered ((sw : ℤ) - (placePic sw sh iw ih).picW) hd
    have hcast : ((((sw : ℤ) - (placePic sw sh iw ih).picW : ℤ)) : ℚ) =
        (sw : ℚ) - (((placePic sw sh iw ih).picW : ℤ) : ℚ) := by
      push_cast
      ring
    rw [hcast] at hc
    exact hc
  · have hd : (0 : ℤ) ≤ (sh : ℤ) - (placePic sw sh iw ih).picH := by
      have := hH.2
      show (0 : ℤ) ≤ (sh : ℤ) -
        ⌊(ih : ℚ) * min ((sw : ℚ) / (iw : ℚ)) ((sh : ℚ) / (ih : ℚ))⌋
      omega
    have hc := half_floor_centered ((sh : ℤ) - (placePic sw sh iw ih).picH) hd
    have hcast : ((((sh : ℤ) - (placePic sw sh iw ih).picH : ℤ)) : ℚ) =
        (sh : ℚ) - (((placePic sw sh iw ih).picH : ℤ) : ℚ) := by
      push_cast
      ring
    rw [hcast] at hc
    exact hc

/-- C7: slide export makes exactly one slide per page, in page order (the
slide list is the image list mapped through the placement), and on each
slide the image is scaled by the single factor
`min(slideWidth/imageWidth, slideHeight/imageHeight)` applied to both axes
(no aspect distortion beyond the final integer floor), fits entirely within
the slide, and is centered horizontally and vertically (near and far
margins equal up to one EMU). -/
theorem ppt_one_slide_per_page_fit_centered (sw sh : Nat) (imgs : List Img)
    (himg : ∀ img ∈ imgs, 0 < img.width ∧ 0 < img.height) :
    (pptRun sw sh imgs).length = imgs.length ∧
    pptRun sw sh imgs = imgs.map (fun img => placePic sw sh img.width img.height) ∧
    (∀ img ∈ imgs,
      ((placePic sw sh img.width img.height).picW =
          ⌊(img.width : ℚ) *
            min ((sw : ℚ) / (img.width : ℚ)) ((sh : ℚ) / (img.height : ℚ))⌋ ∧
        (placePic sw sh img.width img.height).picH =
          ⌊(img.height : ℚ) *
            min ((sw : ℚ) / (img.width : ℚ)) ((sh : ℚ) / (img.height : ℚ))⌋) ∧
      (0 ≤ (placePic sw sh img.width img.height).picW ∧
        (placePic sw sh img.width img.height).picW ≤ (sw : ℤ) ∧
        0 ≤ (placePic sw sh img.width img.height).picH ∧
        (placePic sw sh img.width img.height).picH ≤ (sh : ℤ)) ∧
      (0 ≤ (placePic sw sh img.width img.height).left ∧
        (placePic sw sh img.width img.height).left ≤
          (sw : ℤ) - (placePic sw sh img.width img.height).picW -
            (placePic sw sh img.width img.height).left ∧
        (sw : ℤ) - (placePic sw sh img.width img.height).picW -
            (placePic sw sh img.width img.height).left ≤
          (placePic sw sh img.width img.height).left + 1) ∧
      (0 ≤ (placePic sw sh img.width img.height).top ∧
        (placePic sw sh img.width img.height).top ≤
          (sh : ℤ) - (placePic sw sh img.width img.height).picH -
            (placePic sw sh img.width img.height).top ∧
        (sh : ℤ) - (placePic sw sh img.width img.height).picH -
            (placePic sw sh img.width img.height).top ≤
          (placePic sw sh img.width img.height).top + 1)) := by
  refine ⟨by simp [pptRun], rfl, ?_⟩
  intro img hmem
  exact placePic_spec sw sh img.width img.height (himg img hmem).1 (himg img hmem).2

/-- Witness for C7: a 2 x 3-pixel image on a 4 x 3 slide scales by
`min(4/2, 3/3) = 1` to 2 x 3, placed at left 1, top 0. -/
theorem ppt_one_slide_per_page_fit_centered_witness :
    (∀ img ∈ [(⟨2, 3⟩ : Img)], 0 < img.width ∧ 0 < img.height) ∧
    pptRun 4 3 [⟨2, 3⟩] = [{ picW := 2, picH := 3, left := 1, top := 0 }] ∧
    (0 ≤ (placePic 4 3 2 3).picW ∧ (placePic 4 3 2 3).picW ≤ (4 : ℤ) ∧
      0 ≤ (placePic 4 3 2 3).picH ∧ (placePic 4 3 2 3).picH ≤ (3 : ℤ)) :=
  ⟨by decide,
   by
    show [placePic 4 3 2 3] = _
    unfold placePic
    norm_num [Slide.mk.injEq],
   ((ppt_one_slide_per_page_fit_centered 4 3 [⟨2, 3⟩] (by decide)).2.2
      ⟨2, 3⟩ (by decide)).2.1⟩

/-! ## Compress (`src/pdf_tools/pages/pdf_compress.py`) -/

/-- A page content stream: either still carrying its source encoding, or
re-encoded with FlateDecode at an explicit level.  FlateDecode is lossless,
so the encoded form is modelled as the pair (level, decoded bytes). -/
inductive StreamData
  | source (bytes : List Nat)
  | flate (level : Nat) (bytes : List Nat)
  deriving Repr, DecidableEq

/-- The decoded bytes of a content stream (decoding is lossless). -/
def decodeStream : StreamData → List Nat
  | .source b => b
  | .flate _ b => b

/-- An indirect object of the writer's pool: its encoded bytes and whether
it is referenced from the catalog (orphans are the unreferenced ones). -/
structure IndirectObj where
  refd : Bool
  bytes : List Nat
  deriving Repr, DecidableEq

/-- A document as `CompressThread` sees it: the pages' content streams (one
per page, in page order) plus the rest of the indirect-object pool. -/
structure DocC where
  pageStreams : List StreamData
  objs : List IndirectObj
  deriving Repr, DecidableEq

/-- Modelled from the spec/pypdf contract:
`page.compress_content_streams(level=9)` (pdf_compress.py line 93) decodes
the page's content stream and re-encodes it with FlateDecode at level 9;
the page itself keeps its place in the page tree. -/
def compressContentStream (s : StreamData) : StreamData :=
  .flate 9 (decodeStream s)

/-- Modelled from the spec/pypdf contract:
`writer.compress_identical_objects(remove_identicals=True,
remove_orphans=True)` (pdf_compress.py line 94) collapses byte-identical
objects into the first copy and drops objects unreachable from the catalog;
pages are reachable from the catalog, so the page list is untouched. -/
def dedupObjects (objs : List IndirectObj) : List IndirectObj :=
  (objs.filter (fun o => o.refd)).dedup

/-- Embedding of `CompressThread.run` (pdf_compress.py lines 87-102): clone
the source document, re-encode every page's content stream at level 9, then
deduplicate identical objects and drop orphans. -/
def compressRun (d : DocC) : DocC :=
  { pageStreams := d.pageStreams.map compressContentStream
    objs := dedupObjects d.objs }

/-- Page count of the modelled document. -/
def pageCountC (d : DocC) : Nat :=
  d.pageStreams.length

theorem dedupObjects_idem (objs : List IndirectObj) :
    dedupObjects (dedupObjects objs) = dedupObjects objs := by
  unfold dedupObjects
  rw [List.filter_eq_self.mpr, List.dedup_idem]
  intro o ho
  exact List.of_mem_filter (List.mem_dedup.mp ho)

/-- C9: compress is idempotent in page count —
`pageCount (compress (compress D)) = pageCount (compress D)` (indeed
compression never changes the page count at all) — and compressing an
already-compressed document is a complete no-op in this model
(`compressRun (compressRun d) = compressRun d`), so in particular its
serialized size cannot grow or shrink at all, a fortiori not beyond
filter-header overhead. -/
theorem compress_idempotent (d : DocC) :
    pageCountC (compressRun (compressRun d)) = pageCountC (compressRun d) ∧
    compressRun (compressRun d) = compressRun d ∧
    pageCountC (compressRun d) = pageCountC d := by
  have hfix : compressRun (compressRun d) = compressRun d := by
    show (⟨(d.pageStreams.map compressContentStream).map compressContentStream,
        dedupObjects (dedupObjects d.objs)⟩ : DocC) = compressRun d
    rw [dedupObjects_idem, List.map_map]
    have hmap : List.map (compressContentStream ∘ compressContentStream) d.pageStreams =
        List.map compressContentStream d.pageStreams := by
      apply List.map_congr_left
      intro s _
      cases s <;> rfl
    rw [hmap]
    rfl
  exact ⟨by rw [hfix], hfix, by simp [compressRun, pageCountC]⟩

end PdfTools
